import Mathlib

/-!
Verification of the adversarial-search agent in
`Projects/3_Adversarial Search/my_custom_player.py`.

The file embeds the `AlphaBetaAgent` class (heuristic evaluation,
alpha-beta pruned `min_value`/`max_value`, the root loop of
`minimax_decision`, and the iterative-deepening `compute` generator) as
executable Lean functions over a model of the external game-state
interface, and proves the specified properties about them.
-/

/-- Numeric scores flowing through the search.  The original code works
with Python floats that are in practice either exact integers (liberty
counts and their linear combinations, and game utilities) or the two
infinities `float("inf")` and `float("-inf")` used as sentinels and as
the initial alpha/beta bounds.  We model this value space exactly as the
integers extended with a bottom and a top element. -/
inductive Score where
  | negInf : Score
  | val : ℤ → Score
  | posInf : Score
deriving DecidableEq, Repr

/-- Order on scores: `negInf` is below everything, `posInf` above
everything, and finite values compare as integers. -/
def Score.le : Score → Score → Prop
  | .negInf, _ => True
  | .val _, .negInf => False
  | .val a, .val b => a ≤ b
  | .val _, .posInf => True
  | .posInf, .posInf => True
  | .posInf, .negInf => False
  | .posInf, .val _ => False

instance Score.decLE : (a b : Score) → Decidable (Score.le a b)
  | .negInf, _ => isTrue trivial
  | .val _, .negInf => isFalse id
  | .val a, .val b => inferInstanceAs (Decidable (a ≤ b))
  | .val _, .posInf => isTrue trivial
  | .posInf, .posInf => isTrue trivial
  | .posInf, .negInf => isFalse id
  | .posInf, .val _ => isFalse id

instance : LinearOrder Score where
  le := Score.le
  le_refl a := by cases a <;> simp [Score.le]
  le_trans a b c hab hbc := by
    cases a <;> cases b <;> cases c <;> simp_all [Score.le] <;> omega
  le_antisymm a b hab hba := by
    cases a <;> cases b <;> simp_all [Score.le] <;> omega
  le_total a b := by
    cases a <;> cases b <;> simp [Score.le] <;> omega
  decidableLE := Score.decLE

theorem Score.negInf_le (a : Score) : Score.negInf ≤ a := by
  cases a <;> simp [LE.le, Score.le]

theorem Score.le_posInf (a : Score) : a ≤ Score.posInf := by
  cases a <;> simp [LE.le, Score.le]

theorem Score.le_negInf_iff (a : Score) : a ≤ Score.negInf ↔ a = Score.negInf := by
  constructor
  · intro h; exact le_antisymm h (Score.negInf_le a)
  · intro h; exact h ▸ le_refl _

theorem Score.min_posInf (a : Score) : min a Score.posInf = a :=
  min_eq_left (Score.le_posInf a)

theorem Score.max_negInf (a : Score) : max Score.negInf a = a :=
  max_eq_right (Score.negInf_le a)

/-- Players are identified by an index (0 or 1 in the original harness). -/
abbrev Player := Nat

/-- A board location. -/
abbrev Loc := Nat

/-- A move is a pair of board coordinates, per the docstring of
`minimax_decision` ("a pair of coordinates in (column, row) order"). -/
abbrev Move := Nat × Nat

/-- Model of the external `gameState` object consumed by the agent.  A
state records everything the agent reads from it: the location of each
player (`locs`), the running ply count (`ply_count`), the liberties
available from a location (`liberties`), whether the state is terminal
(`terminal_test`), the utility from the perspective of a given player
(`utility`, meaningful at terminal states), and the successor table: the
legal actions (`actions`, the keys of `succs` in order) together with
the state each action leads to (`result`, lookup in `succs`). -/
inductive GameState where
  | node (locs : Player → Loc) (ply_count : Nat) (liberties : Loc → List Loc)
      (terminal : Bool) (util : Player → Score)
      (succs : List (Move × GameState))

def GameState.locs : GameState → Player → Loc
  | .node l _ _ _ _ _ => l

def GameState.ply_count : GameState → Nat
  | .node _ p _ _ _ _ => p

def GameState.liberties : GameState → Loc → List Loc
  | .node _ _ lib _ _ _ => lib

def GameState.terminal_test : GameState → Bool
  | .node _ _ _ t _ _ => t

def GameState.utility : GameState → Player → Score
  | .node _ _ _ _ u _ => u

def GameState.succs : GameState → List (Move × GameState)
  | .node _ _ _ _ _ sc => sc

/-- `gameState.actions()`: the legal moves, in their enumeration order. -/
def GameState.actions (g : GameState) : List Move :=
  g.succs.map Prod.fst

/-- `gameState.result(action)`: the successor reached by a legal move.
The search only ever queries moves taken from `actions`, for which the
lookup succeeds; the `getD` default is never reached from the agent. -/
def GameState.result (g : GameState) (m : Move) : GameState :=
  ((g.succs.find? (fun p => p.1 == m)).map Prod.snd).getD g

/-- `BOARD_SIZE = 99`: number of cells of the 11 x 9 board. -/
def BOARD_SIZE : Nat := 99

/-- The `AlphaBetaAgent` object state set up by `__init__`: the two
player identities and the numeric heuristic-mode flag `h_type`. -/
structure AlphaBetaAgent where
  agent_player : Player
  opponent_player : Player
  h_type : ℤ

/-- `AlphaBetaAgent.heuristic`.  For `h_type == 0` it returns the
liberty difference; for `h_type == 1` it returns the phase-adaptive
score driven by the fill ratio `m = ply_count / BOARD_SIZE`; for any
other flag value the Python function falls off the end and implicitly
returns `None`, modelled as `none`.  The float comparison
`m < 0.5` is embedded as the exact rational comparison, which agrees
with the double-precision computation on all attainable ply counts. -/
def AlphaBetaAgent.heuristic (A : AlphaBetaAgent) (s : GameState) : Option ℤ :=
  let agent_loc := s.locs A.agent_player
  let opponent_loc := s.locs A.opponent_player
  let agent_liberties := s.liberties agent_loc
  let opponent_liberties := s.liberties opponent_loc
  if A.h_type = 0 then
    some ((agent_liberties.length : ℤ) - (opponent_liberties.length : ℤ))
  else if A.h_type = 1 then
    if (s.ply_count : ℚ) / (BOARD_SIZE : ℚ) < 0.5 then
      some ((agent_liberties.length : ℤ) - 2 * (opponent_liberties.length : ℤ))
    else
      some (2 * (agent_liberties.length : ℤ) - (opponent_liberties.length : ℤ))
  else
    none

/-- The score the search uses at the depth horizon
(`return self.heuristic(gameState)`).  For the two supported modes
(`h_type = 0` or `1`) the heuristic always produces a value; an invalid
mode would make the original propagate `None` and raise a `TypeError`
in the caller, so the `none` branch below is unreachable under the
mode-validity hypotheses carried by the search theorems. -/
def heuristicScore (A : AlphaBetaAgent) (s : GameState) : Score :=
  match A.heuristic s with
  | some v => Score.val v
  | none => Score.val 0

/-- The `for action in actions` loop of `min_value` (lines 91 to 96):
`value = min(value, max_value(result(action), alpha, beta, depth - 1))`,
an early return of `value` as soon as `value <= alpha`, and the
tightening `beta = min(beta, value)` otherwise.  The evaluation of the
child at the decremented depth is abstracted as the function `f`, which
receives the current `alpha` and `beta`.  The guard `if actions != None`
of the source is always true (the engine returns a list) and disappears
in the embedding. -/
def minLoop (f : GameState → Score → Score → Score) (s : GameState) :
    List Move → Score → Score → Score → Score
  | [], _, _, value => value
  | action :: rest, alpha, beta, value =>
    let value1 := min value (f (s.result action) alpha beta)
    if value1 ≤ alpha then value1
    else minLoop f s rest alpha (min beta value1) value1

/-- The `for action in actions` loop of `max_value` (lines 112 to 117),
mirror image of `minLoop`. -/
def maxLoop (f : GameState → Score → Score → Score) (s : GameState) :
    List Move → Score → Score → Score → Score
  | [], _, _, value => value
  | action :: rest, alpha, beta, value =>
    let value1 := max value (f (s.result action) alpha beta)
    if beta ≤ value1 then value1
    else maxLoop f s rest (max alpha value1) beta value1

mutual
/-- `AlphaBetaAgent.min_value`: utility at terminal states (checked
first), heuristic once the depth budget is exhausted (`depth <= 0`,
which for the natural-number depth means `depth = 0`), otherwise the
minimizing loop over the legal actions starting from `+inf`, with the
children evaluated by `max_value` at `depth - 1`. -/
def min_value (A : AlphaBetaAgent) (s : GameState) (alpha beta : Score) :
    Nat → Score
  | 0 =>
    if s.terminal_test then s.utility A.agent_player
    else heuristicScore A s
  | depth + 1 =>
    if s.terminal_test then s.utility A.agent_player
    else minLoop (fun c a b => max_value A c a b depth) s s.actions alpha beta Score.posInf

/-- `AlphaBetaAgent.max_value`, mirror image of `min_value`: the loop
starts from `-inf` and maximizes over `min_value` of the children. -/
def max_value (A : AlphaBetaAgent) (s : GameState) (alpha beta : Score) :
    Nat → Score
  | 0 =>
    if s.terminal_test then s.utility A.agent_player
    else heuristicScore A s
  | depth + 1 =>
    if s.terminal_test then s.utility A.agent_player
    else maxLoop (fun c a b => min_value A c a b depth) s s.actions alpha beta Score.negInf
end

/-- The root loop of `minimax_decision` (lines 67 to 72): for each
action, `value = min_value(result(action), alpha, beta, depth - 1)`,
then `alpha = max(alpha, value)`, and the running best pair is replaced
exactly when `value > best_score`. -/
def rootLoop (A : AlphaBetaAgent) (s : GameState) :
    List Move → Score → Score → Score → Option Move → Nat → Score × Option Move
  | [], _, _, best_score, best_move, _ => (best_score, best_move)
  | action :: rest, alpha, beta, best_score, best_move, depth =>
    let value := min_value A (s.result action) alpha beta (depth - 1)
    let alpha1 := max alpha value
    if best_score < value then
      rootLoop A s rest alpha1 beta value (some action) depth
    else
      rootLoop A s rest alpha1 beta best_score best_move depth

/-- The body of `minimax_decision` before the fallback: run the root
loop over `gameState.actions()` with `alpha = -inf`, `beta = +inf`,
`best_score = -inf`, `best_move = None`, returning the final
`(best_score, best_move)` pair. -/
def root_search (A : AlphaBetaAgent) (s : GameState) (depth : Nat) :
    Score × Option Move :=
  rootLoop A s s.actions Score.negInf Score.posInf Score.negInf none depth

/-- `AlphaBetaAgent.minimax_decision`.  The call
`random.choice(gameState.actions())` taken when `best_move` is still
`None` after the loop is a draw from an external randomness source; it
is modelled by the explicit picker `pick`, which returns `none` exactly
when `random.choice` would raise on an empty list.  Theorems about the
fallback quantify over every picker that returns an element of its
input list. -/
def minimax_decision (pick : List Move → Option Move) (A : AlphaBetaAgent)
    (s : GameState) (depth : Nat) : Option Move :=
  match (root_search A s depth).2 with
  | some best_move => some best_move
  | none => pick s.actions

/-- `AlphaBetaAgent.compute`: the generator
`for depth in range(1, max_depth + 1): yield minimax_decision(...)`,
modelled as the list of its yields in order. -/
def compute (pick : List Move → Option Move) (A : AlphaBetaAgent)
    (s : GameState) (max_depth : Nat) : List (Option Move) :=
  (List.range' 1 max_depth).map (fun depth => minimax_decision pick A s depth)

/-- The sequence of `value` results computed by the root loop, with the
same threading of `alpha` (`beta` stays `+inf` at the root).  This is
the list of scores the candidate root moves receive. -/
def rootValues (A : AlphaBetaAgent) (s : GameState) :
    List Move → Score → Nat → List Score
  | [], _, _ => []
  | action :: rest, alpha, depth =>
    let value := min_value A (s.result action) alpha Score.posInf (depth - 1)
    value :: rootValues A s rest (max alpha value) depth

/-- The root values of `minimax_decision` itself, starting from
`alpha = best_score = -inf`. -/
def rootValuesAt (A : AlphaBetaAgent) (s : GameState) (depth : Nat) : List Score :=
  rootValues A s s.actions Score.negInf depth

/-- Spec-side helper: the minimum over the legal actions of an
evaluation `g` of the successor, `+inf` when there are none.  Used by
the unpruned reference minimax below. -/
def fullMinList (g : GameState → Score) (s : GameState) : List Move → Score
  | [] => Score.posInf
  | action :: rest => min (g (s.result action)) (fullMinList g s rest)

/-- Spec-side helper, mirror of `fullMinList`: maximum with `-inf` for
the empty list. -/
def fullMaxList (g : GameState → Score) (s : GameState) : List Move → Score
  | [] => Score.negInf
  | action :: rest => max (g (s.result action)) (fullMaxList g s rest)

mutual
/-- Modelled from the spec: the score a full, unpruned minimax search
would assign to a minimizing node ("a full unpruned minimax would
return at that depth"): utility at terminal states, heuristic at the
depth horizon, otherwise the plain minimum over all successors of the
maximizing value one level deeper, with no alpha/beta bounds. -/
def fullMin (A : AlphaBetaAgent) (s : GameState) : Nat → Score
  | 0 =>
    if s.terminal_test then s.utility A.agent_player
    else heuristicScore A s
  | depth + 1 =>
    if s.terminal_test then s.utility A.agent_player
    else fullMinList (fun c => fullMax A c depth) s s.actions

/-- Modelled from the spec: the unpruned maximizing value, mirror image
of `fullMin`. -/
def fullMax (A : AlphaBetaAgent) (s : GameState) : Nat → Score
  | 0 =>
    if s.terminal_test then s.utility A.agent_player
    else heuristicScore A s
  | depth + 1 =>
    if s.terminal_test then s.utility A.agent_player
    else fullMaxList (fun c => fullMin A c depth) s s.actions
end

/-- Modelled from the spec: the score of the root of a full unpruned
minimax search of depth `depth` (a maximizing step over the legal
actions, each successor evaluated by `fullMin` at `depth - 1`, `-inf`
if there are no actions). -/
def fullRootScore (A : AlphaBetaAgent) (s : GameState) (depth : Nat) : Score :=
  fullMaxList (fun c => fullMin A c (depth - 1)) s s.actions

theorem minLoop_le (f : GameState → Score → Score → Score) (s : GameState) :
    ∀ (acts : List Move) (alpha beta value : Score),
      minLoop f s acts alpha beta value ≤ value := by
  intro acts
  induction acts with
  | nil => intro alpha beta value; simp [minLoop]
  | cons a rest ih =>
    intro alpha beta value
    simp only [minLoop]
    by_cases h : min value (f (s.result a) alpha beta) ≤ alpha
    · rw [if_pos h]; exact min_le_left _ _
    · rw [if_neg h]
      exact le_trans (ih _ _ _) (min_le_left _ _)

theorem maxLoop_ge (f : GameState → Score → Score → Score) (s : GameState) :
    ∀ (acts : List Move) (alpha beta value : Score),
      value ≤ maxLoop f s acts alpha beta value := by
  intro acts
  induction acts with
  | nil => intro alpha beta value; simp [maxLoop]
  | cons a rest ih =>
    intro alpha beta value
    simp only [maxLoop]
    by_cases h : beta ≤ max value (f (s.result a) alpha beta)
    · rw [if_pos h]; exact le_max_left _ _
    · rw [if_neg h]
      exact le_trans (le_max_left _ _) (ih _ _ _)

theorem min_absorb_right (x y b : Score) (h : x ≤ y) : min x (min b y) = min x b := by
  rw [min_comm b y, ← min_assoc, min_eq_left h]

theorem max_absorb_mid (al v z : Score) (h : v ≤ z) : max (max al v) z = max al z := by
  rw [max_assoc, max_eq_right h]

/-- Window lemma for the minimizing loop: clamped to the `[alpha, beta]`
window of its caller, the pruned loop agrees with the unpruned minimum,
provided each child evaluation agrees with its unpruned counterpart in
the same clamped sense. -/
theorem minLoop_clamp (f : GameState → Score → Score → Score)
    (g : GameState → Score) (s : GameState)
    (hfg : ∀ c alpha beta, max alpha (min (f c alpha beta) beta)
        = max alpha (min (g c) beta)) :
    ∀ (acts : List Move) (alpha beta value : Score),
      max alpha (min (minLoop f s acts alpha beta value) beta)
        = max alpha (min (min value (fullMinList g s acts)) beta) := by
  intro acts
  induction acts with
  | nil =>
    intro alpha beta value
    simp [minLoop, fullMinList, Score.min_posInf]
  | cons a rest ih =>
    intro alpha beta value
    rcases le_or_lt beta alpha with hba | hab
    · rw [max_eq_left (le_trans (min_le_right _ _) hba),
        max_eq_left (le_trans (min_le_right _ _) hba)]
    · simp only [minLoop, fullMinList]
      by_cases hple : min value (f (s.result a) alpha beta) ≤ alpha
      · rw [if_pos hple]
        rw [max_eq_left (le_trans (min_le_left _ _) hple)]
        rcases min_le_iff.mp hple with hv | hr
        · exact (max_eq_left (le_trans (min_le_left _ _)
            (le_trans (min_le_left _ _) hv))).symm
        · have h1 : max alpha (min (f (s.result a) alpha beta) beta) = alpha :=
            max_eq_left (le_trans (min_le_left _ _) hr)
          have h2 : min (g (s.result a)) beta ≤ alpha :=
            max_eq_left_iff.mp ((hfg (s.result a) alpha beta).symm.trans h1)
          have h3 : g (s.result a) ≤ alpha := by
            rcases min_le_iff.mp h2 with h | h
            · exact h
            · exact absurd hab (not_lt.mpr h)
          refine (max_eq_left ?_).symm
          calc min (min value (min (g (s.result a)) (fullMinList g s rest))) beta
              ≤ min value (min (g (s.result a)) (fullMinList g s rest)) := min_le_left _ _
            _ ≤ min (g (s.result a)) (fullMinList g s rest) := min_le_right _ _
            _ ≤ g (s.result a) := min_le_left _ _
            _ ≤ alpha := h3
      · rw [if_neg hple]
        set v1 := min value (f (s.result a) alpha beta) with hv1
        set resv := minLoop f s rest alpha (min beta v1) v1 with hresv
        have hres : resv ≤ v1 := by rw [hresv]; exact minLoop_le f s rest _ _ _
        have ih1 := ih alpha (min beta v1) v1
        rw [← hresv] at ih1
        rw [min_absorb_right resv v1 beta hres,
          min_absorb_right (min v1 (fullMinList g s rest)) v1 beta (min_le_left _ _)] at ih1
        rw [ih1]
        have e3 : min (min v1 (fullMinList g s rest)) beta
            = min (min value (fullMinList g s rest))
              (min (f (s.result a) alpha beta) beta) := by
          rw [hv1]
          simp [min_comm, min_assoc, min_left_comm]
        have e4 : min (min value (min (g (s.result a)) (fullMinList g s rest))) beta
            = min (min value (fullMinList g s rest)) (min (g (s.result a)) beta) := by
          simp [min_comm, min_assoc, min_left_comm]
        rw [e3, e4, max_min_distrib_left, max_min_distrib_left, hfg,
          ← max_min_distrib_left, ← max_min_distrib_left]

/-- Window lemma for the maximizing loop, mirror of `minLoop_clamp`. -/
theorem maxLoop_clamp (f : GameState → Score → Score → Score)
    (g : GameState → Score) (s : GameState)
    (hfg : ∀ c alpha beta, max alpha (min (f c alpha beta) beta)
        = max alpha (min (g c) beta)) :
    ∀ (acts : List Move) (alpha beta value : Score),
      max alpha (min (maxLoop f s acts alpha beta value) beta)
        = max alpha (min (max value (fullMaxList g s acts)) beta) := by
  intro acts
  induction acts with
  | nil =>
    intro alpha beta value
    simp only [maxLoop, fullMaxList]
    rw [max_eq_left (Score.negInf_le value)]
  | cons a rest ih =>
    intro alpha beta value
    rcases le_or_lt beta alpha with hba | hab
    · rw [max_eq_left (le_trans (min_le_right _ _) hba),
        max_eq_left (le_trans (min_le_right _ _) hba)]
    · simp only [maxLoop, fullMaxList]
      by_cases hprn : beta ≤ max value (f (s.result a) alpha beta)
      · rw [if_pos hprn]
        rw [min_eq_right hprn, max_eq_right hab.le]
        have hR : beta ≤ max value (max (g (s.result a)) (fullMaxList g s rest)) := by
          rcases le_max_iff.mp hprn with hv | hr
          · exact le_trans hv (le_max_left _ _)
          · have h1 : max alpha (min (f (s.result a) alpha beta) beta) = beta := by
              rw [min_eq_right hr, max_eq_right hab.le]
            have h2 : max alpha (min (g (s.result a)) beta) = beta :=
              (hfg (s.result a) alpha beta).symm.trans h1
            have h3 : beta ≤ g (s.result a) := by
              rcases le_total (min (g (s.result a)) beta) alpha with h | h
              · rw [max_eq_left h] at h2
                exact absurd h2 (ne_of_lt hab)
              · rw [max_eq_right h] at h2
                exact min_eq_right_iff.mp h2
            exact le_trans h3 (le_trans (le_max_left _ _) (le_max_right _ _))
        rw [min_eq_right hR, max_eq_right hab.le]
      · rw [if_neg hprn]
        have hlt : max value (f (s.result a) alpha beta) < beta := lt_of_not_le hprn
        set v1 := max value (f (s.result a) alpha beta) with hv1
        set resv := maxLoop f s rest (max alpha v1) beta v1 with hresv
        have hres : v1 ≤ resv := by rw [hresv]; exact maxLoop_ge f s rest _ _ _
        have ih1 := ih (max alpha v1) beta v1
        rw [← hresv] at ih1
        rw [max_absorb_mid alpha v1 (min resv beta) (le_min hres hlt.le),
          max_absorb_mid alpha v1 (min (max v1 (fullMaxList g s rest)) beta)
            (le_min (le_max_left _ _) hlt.le)] at ih1
        rw [ih1]
        have e3 : min (max v1 (fullMaxList g s rest)) beta
            = max (min (max value (fullMaxList g s rest)) beta)
              (min (f (s.result a) alpha beta) beta) := by
          rw [hv1, show max (max value (f (s.result a) alpha beta)) (fullMaxList g s rest)
              = max (max value (fullMaxList g s rest)) (f (s.result a) alpha beta) by
            simp [max_comm, max_assoc, max_left_comm]]
          exact min_max_distrib_right _ _ _
        have e4 : min (max value (max (g (s.result a)) (fullMaxList g s rest))) beta
            = max (min (max value (fullMaxList g s rest)) beta)
              (min (g (s.result a)) beta) := by
          rw [show max value (max (g (s.result a)) (fullMaxList g s rest))
              = max (max value (fullMaxList g s rest)) (g (s.result a)) by
            simp [max_comm, max_assoc, max_left_comm]]
          exact min_max_distrib_right _ _ _
        rw [e3, e4, sup_left_comm alpha (min (max value (fullMaxList g s rest)) beta)
          (min (f (s.result a) alpha beta) beta), hfg]
        exact sup_left_comm _ _ _

/-- Central alpha-beta soundness lemma: at every depth, the pruned
`min_value` and `max_value` agree with the unpruned `fullMin` and
`fullMax` once both are clamped to the `[alpha, beta]` window handed to
the pruned search. -/
theorem alphabeta_clamp (A : AlphaBetaAgent) :
    ∀ depth : Nat,
      (∀ s alpha beta, max alpha (min (min_value A s alpha beta depth) beta)
          = max alpha (min (fullMin A s depth) beta)) ∧
      (∀ s alpha beta, max alpha (min (max_value A s alpha beta depth) beta)
          = max alpha (min (fullMax A s depth) beta)) := by
  intro depth
  induction depth with
  | zero =>
    constructor
    · intro s alpha beta
      have h : min_value A s alpha beta 0 = fullMin A s 0 := rfl
      rw [h]
    · intro s alpha beta
      have h : max_value A s alpha beta 0 = fullMax A s 0 := rfl
      rw [h]
  | succ d ih =>
    constructor
    · intro s alpha beta
      by_cases ht : s.terminal_test = true
      · have h1 : min_value A s alpha beta (d + 1) = s.utility A.agent_player := by
          simp [min_value, ht]
        have h2 : fullMin A s (d + 1) = s.utility A.agent_player := by
          simp [fullMin, ht]
        rw [h1, h2]
      · have h1 : min_value A s alpha beta (d + 1)
            = minLoop (fun c a b => max_value A c a b d) s s.actions alpha beta Score.posInf := by
          simp [min_value, ht]
        have h2 : fullMin A s (d + 1) = fullMinList (fun c => fullMax A c d) s s.actions := by
          simp [fullMin, ht]
        rw [h1, h2]
        rw [minLoop_clamp (fun c a b => max_value A c a b d) (fun c => fullMax A c d) s
          (fun c a b => ih.2 c a b) s.actions alpha beta Score.posInf]
        rw [min_comm Score.posInf (fullMinList (fun c => fullMax A c d) s s.actions),
          Score.min_posInf]
    · intro s alpha beta
      by_cases ht : s.terminal_test = true
      · have h1 : max_value A s alpha beta (d + 1) = s.utility A.agent_player := by
          simp [max_value, ht]
        have h2 : fullMax A s (d + 1) = s.utility A.agent_player := by
          simp [fullMax, ht]
        rw [h1, h2]
      · have h1 : max_value A s alpha beta (d + 1)
            = maxLoop (fun c a b => min_value A c a b d) s s.actions alpha beta Score.negInf := by
          simp [max_value, ht]
        have h2 : fullMax A s (d + 1) = fullMaxList (fun c => fullMin A c d) s s.actions := by
          simp [fullMax, ht]
        rw [h1, h2]
        rw [maxLoop_clamp (fun c a b => min_value A c a b d) (fun c => fullMin A c d) s
          (fun c a b => ih.1 c a b) s.actions alpha beta Score.negInf]
        rw [Score.max_negInf]

/-- Invariant of the root loop when it is entered with `alpha`
equal to the running `best_score` (as `minimax_decision` does: both
start at `-inf` and both are updated with `max` against each value):
the final best score is the maximum of the initial one and the
unpruned values of all candidates, and the final best move is either
the initial one (with the score unchanged) or a candidate whose
unpruned value equals the final best score. -/
theorem rootLoop_spec (A : AlphaBetaAgent) (s : GameState) (depth : Nat) :
    ∀ (acts : List Move) (bs : Score) (bm : Option Move),
      (rootLoop A s acts bs Score.posInf bs bm depth).1
        = max bs (fullMaxList (fun c => fullMin A c (depth - 1)) s acts) ∧
      ((rootLoop A s acts bs Score.posInf bs bm depth).2 = bm ∧
          (rootLoop A s acts bs Score.posInf bs bm depth).1 = bs ∨
        ∃ a ∈ acts, (rootLoop A s acts bs Score.posInf bs bm depth).2 = some a ∧
          fullMin A (s.result a) (depth - 1)
            = (rootLoop A s acts bs Score.posInf bs bm depth).1) := by
  intro acts
  induction acts with
  | nil =>
    intro bs bm
    constructor
    · simp only [rootLoop, fullMaxList]
      exact (max_eq_left (Score.negInf_le bs)).symm
    · left
      exact ⟨rfl, rfl⟩
  | cons a rest ih =>
    intro bs bm
    have hclamp := (alphabeta_clamp A (depth - 1)).1 (s.result a) bs Score.posInf
    rw [Score.min_posInf, Score.min_posInf] at hclamp
    simp only [rootLoop, fullMaxList]
    by_cases hlt : bs < min_value A (s.result a) bs Score.posInf (depth - 1)
    · rw [if_pos hlt, max_eq_right hlt.le]
      have hveq : min_value A (s.result a) bs Score.posInf (depth - 1)
          = fullMin A (s.result a) (depth - 1) := by
        rcases le_total (fullMin A (s.result a) (depth - 1)) bs with h | h
        · rw [max_eq_left h] at hclamp
          exact absurd hlt (not_lt.mpr (max_eq_left_iff.mp hclamp))
        · rw [max_eq_right h, max_eq_right hlt.le] at hclamp
          exact hclamp
      obtain ⟨ih1, ih2⟩ := ih (min_value A (s.result a) bs Score.posInf (depth - 1)) (some a)
      constructor
      · rw [ih1, hveq, ← max_assoc,
          max_eq_right (le_trans hlt.le (le_of_eq hveq) :
            bs ≤ fullMin A (s.result a) (depth - 1))]
      · right
        rcases ih2 with ⟨h2, h1⟩ | ⟨b, hb, h2, h1⟩
        · exact ⟨a, List.mem_cons_self a rest, h2, by rw [h1, hveq]⟩
        · exact ⟨b, List.mem_cons_of_mem a hb, h2, h1⟩
  
    · rw [if_neg hlt, max_eq_left (not_lt.mp hlt)]
      have hteq : fullMin A (s.result a) (depth - 1) ≤ bs := by
        rw [max_eq_left (not_lt.mp hlt)] at hclamp
        exact max_eq_left_iff.mp hclamp.symm
      obtain ⟨ih1, ih2⟩ := ih bs bm
      constructor
      · rw [ih1, ← max_assoc, max_eq_left hteq]
      · rcases ih2 with ⟨h2, h1⟩ | ⟨b, hb, h2, h1⟩
        · exact Or.inl ⟨h2, h1⟩
        · exact Or.inr ⟨b, List.mem_cons_of_mem a hb, h2, h1⟩

/-- The best move produced by the root loop is either the initial one or
one of the candidates of the list (whatever the bounds). -/
theorem rootLoop_move (A : AlphaBetaAgent) (s : GameState) (depth : Nat) :
    ∀ (acts : List Move) (alpha beta bs : Score) (bm : Option Move),
      (rootLoop A s acts alpha beta bs bm depth).2 = bm ∨
      ∃ a ∈ acts, (rootLoop A s acts alpha beta bs bm depth).2 = some a := by
  intro acts
  induction acts with
  | nil => intro alpha beta bs bm; exact Or.inl rfl
  | cons a rest ih =>
    intro alpha beta bs bm
    simp only [rootLoop]
    by_cases hlt : bs < min_value A (s.result a) alpha beta (depth - 1)
    · rw [if_pos hlt]
      rcases ih (max alpha (min_value A (s.result a) alpha beta (depth - 1))) beta
        (min_value A (s.result a) alpha beta (depth - 1)) (some a) with h | ⟨b, hb, h⟩
      · exact Or.inr ⟨a, List.mem_cons_self a rest, h⟩
      · exact Or.inr ⟨b, List.mem_cons_of_mem a hb, h⟩
    · rw [if_neg hlt]
      rcases ih (max alpha (min_value A (s.result a) alpha beta (depth - 1))) beta
        bs bm with h | ⟨b, hb, h⟩
      · exact Or.inl h
      · exact Or.inr ⟨b, List.mem_cons_of_mem a hb, h⟩

theorem rootValues_length (A : AlphaBetaAgent) (s : GameState) (depth : Nat) :
    ∀ (acts : List Move) (alpha : Score),
      (rootValues A s acts alpha depth).length = acts.length := by
  intro acts
  induction acts with
  | nil => intro alpha; rfl
  | cons a rest ih =>
    intro alpha
    simp only [rootValues, List.length_cons, ih]

/-- If no candidate value ever exceeds the running best score, the root
loop leaves the best pair untouched. -/
theorem rootLoop_const (A : AlphaBetaAgent) (s : GameState) (depth : Nat) :
    ∀ (acts : List Move) (bs : Score) (bm : Option Move),
      (∀ w ∈ rootValues A s acts bs depth, w ≤ bs) →
      rootLoop A s acts bs Score.posInf bs bm depth = (bs, bm) := by
  intro acts
  induction acts with
  | nil => intro bs bm _; rfl
  | cons a rest ih =>
    intro bs bm h
    have hv : min_value A (s.result a) bs Score.posInf (depth - 1) ≤ bs := by
      refine h _ ?_
      simp only [rootValues]
      exact List.mem_cons_self _ _
    simp only [rootLoop]
    rw [if_neg (not_lt.mpr hv), max_eq_left hv]
    refine ih bs bm ?_
    intro w hw
    refine h w ?_
    simp only [rootValues]
    rw [max_eq_left hv]
    exact List.mem_cons_of_mem _ hw

/-- If some candidate value strictly exceeds the running best score, the
root loop ends with a best move that is set. -/
theorem rootLoop_improve (A : AlphaBetaAgent) (s : GameState) (depth : Nat) :
    ∀ (acts : List Move) (bs : Score) (bm : Option Move),
      (∃ w ∈ rootValues A s acts bs depth, ¬ w ≤ bs) →
      ∃ a, (rootLoop A s acts bs Score.posInf bs bm depth).2 = some a := by
  intro acts
  induction acts with
  | nil => intro bs bm h; simp [rootValues] at h
  | cons a rest ih =>
    intro bs bm h
    simp only [rootLoop]
    by_cases hlt : bs < min_value A (s.result a) bs Score.posInf (depth - 1)
    · rw [if_pos hlt]
      rcases rootLoop_move A s depth rest
        (max bs (min_value A (s.result a) bs Score.posInf (depth - 1))) Score.posInf
        (min_value A (s.result a) bs Score.posInf (depth - 1)) (some a) with hm | ⟨b, _, hm⟩
      · exact ⟨a, hm⟩
      · exact ⟨b, hm⟩
    · rw [if_neg hlt, max_eq_left (not_lt.mp hlt)]
      refine ih bs bm ?_
      obtain ⟨w, hw, hwgt⟩ := h
      simp only [rootValues] at hw
      rcases List.mem_cons.mp hw with hweq | hwmem
      · exact absurd (hweq ▸ hwgt) (not_not_intro (not_lt.mp hlt))
      · rw [max_eq_left (not_lt.mp hlt)] at hwmem
        exact ⟨w, hwmem, hwgt⟩

theorem fullMaxList_mem_le (g : GameState → Score) (s : GameState) :
    ∀ (acts : List Move) (a : Move), a ∈ acts →
      g (s.result a) ≤ fullMaxList g s acts := by
  intro acts
  induction acts with
  | nil => intro a ha; exact absurd ha (List.not_mem_nil a)
  | cons b rest ih =>
    intro a ha
    rcases List.mem_cons.mp ha with h | h
    · subst h; exact le_max_left _ _
    · exact le_trans (ih a h) (le_max_right _ _)

theorem fullMaxList_eq_negInf (g : GameState → Score) (s : GameState)
    (acts : List Move) (h : fullMaxList g s acts = Score.negInf) :
    ∀ a ∈ acts, g (s.result a) = Score.negInf := by
  intro a ha
  exact (Score.le_negInf_iff _).mp (h ▸ fullMaxList_mem_le g s acts a ha)

/-- First-argmax behaviour of the root loop: if the `k`-th candidate
value is maximal among all candidate values, strictly larger than every
value before it, and strictly larger than the initial best score, then
the loop returns the `k`-th action. -/
theorem rootLoop_first_argmax (A : AlphaBetaAgent) (s : GameState) (depth : Nat) :
    ∀ (acts : List Move) (bs : Score) (bm : Option Move) (k : Nat)
      (hka : k < acts.length)
      (hkv : k < (rootValues A s acts bs depth).length),
      (∀ j (hj : j < (rootValues A s acts bs depth).length),
        (rootValues A s acts bs depth).get ⟨j, hj⟩
          ≤ (rootValues A s acts bs depth).get ⟨k, hkv⟩) →
      (∀ j (hj : j < (rootValues A s acts bs depth).length), j < k →
        (rootValues A s acts bs depth).get ⟨j, hj⟩
          < (rootValues A s acts bs depth).get ⟨k, hkv⟩) →
      bs < (rootValues A s acts bs depth).get ⟨k, hkv⟩ →
      (rootLoop A s acts bs Score.posInf bs bm depth).2 = some (acts.get ⟨k, hka⟩) := by
  intro acts
  induction acts with
  | nil => intro bs bm k hka; exact absurd hka (Nat.not_lt_zero k)
  | cons a rest ih =>
    intro bs bm k hka hkv hmax hfirst hbs
    cases k with
    | zero =>
      have hbsv : bs < min_value A (s.result a) bs Score.posInf (depth - 1) := hbs
      simp only [rootLoop]
      rw [if_pos hbsv, max_eq_right hbsv.le]
      have hconst : rootLoop A s rest
          (min_value A (s.result a) bs Score.posInf (depth - 1)) Score.posInf
          (min_value A (s.result a) bs Score.posInf (depth - 1)) (some a) depth
          = (min_value A (s.result a) bs Score.posInf (depth - 1), some a) := by
        refine rootLoop_const A s depth rest _ (some a) ?_
        intro w hw
        have hw2 : w ∈ rootValues A s rest
            (max bs (min_value A (s.result a) bs Score.posInf (depth - 1))) depth := by
          rw [max_eq_right hbsv.le]; exact hw
        obtain ⟨⟨j, hj⟩, hjw⟩ := List.mem_iff_get.mp hw2
        have hcmp : (rootValues A s rest
              (max bs (min_value A (s.result a) bs Score.posInf (depth - 1))) depth).get
              ⟨j, hj⟩
            ≤ min_value A (s.result a) bs Score.posInf (depth - 1) :=
          hmax (j + 1) (Nat.succ_lt_succ hj)
        rw [hjw] at hcmp
        exact hcmp
      rw [hconst]
      rfl
    | succ k1 =>
      have hka1 : k1 < rest.length := Nat.lt_of_succ_lt_succ hka
      have hkv1 : k1 < (rootValues A s rest
          (max bs (min_value A (s.result a) bs Score.posInf (depth - 1))) depth).length :=
        Nat.lt_of_succ_lt_succ hkv
      have hv_lt : min_value A (s.result a) bs Score.posInf (depth - 1)
          < (rootValues A s rest
              (max bs (min_value A (s.result a) bs Score.posInf (depth - 1))) depth).get
              ⟨k1, hkv1⟩ :=
        hfirst 0 (Nat.succ_pos _) (Nat.succ_pos k1)
      have hbs1 : bs < (rootValues A s rest
          (max bs (min_value A (s.result a) bs Score.posInf (depth - 1))) depth).get
          ⟨k1, hkv1⟩ := hbs
      simp only [rootLoop]
      by_cases hc : bs < min_value A (s.result a) bs Score.posInf (depth - 1)
      · rw [if_pos hc, max_eq_right hc.le]
        have hEq : rootValues A s rest
            (max bs (min_value A (s.result a) bs Score.posInf (depth - 1))) depth
            = rootValues A s rest (min_value A (s.result a) bs Score.posInf (depth - 1)) depth := by
          rw [max_eq_right hc.le]
        have hkv2 : k1 < (rootValues A s rest
            (min_value A (s.result a) bs Score.posInf (depth - 1)) depth).length := by
          rw [← hEq]; exact hkv1
        have e2 : (rootValues A s rest
              (max bs (min_value A (s.result a) bs Score.posInf (depth - 1))) depth).get
              ⟨k1, hkv1⟩
            = (rootValues A s rest
              (min_value A (s.result a) bs Score.posInf (depth - 1)) depth).get
              ⟨k1, hkv2⟩ :=
          List.get_of_eq hEq ⟨k1, hkv1⟩
        refine ih (min_value A (s.result a) bs Score.posInf (depth - 1)) (some a)
          k1 hka1 hkv2 ?_ ?_ ?_
        · intro j hj
          have hj1 : j < (rootValues A s rest
              (max bs (min_value A (s.result a) bs Score.posInf (depth - 1))) depth).length := by
            rw [hEq]; exact hj
          have e1 : (rootValues A s rest
                (max bs (min_value A (s.result a) bs Score.posInf (depth - 1))) depth).get
                ⟨j, hj1⟩
              = (rootValues A s rest
                (min_value A (s.result a) bs Score.posInf (depth - 1)) depth).get
                ⟨j, hj⟩ :=
            List.get_of_eq hEq ⟨j, hj1⟩
          have hcmp : (rootValues A s rest
                (max bs (min_value A (s.result a) bs Score.posInf (depth - 1))) depth).get
                ⟨j, hj1⟩
              ≤ (rootValues A s rest
                (max bs (min_value A (s.result a) bs Score.posInf (depth - 1))) depth).get
                ⟨k1, hkv1⟩ :=
            hmax (j + 1) (Nat.succ_lt_succ hj1)
          rw [e1, e2] at hcmp
          exact hcmp
        · intro j hj hjk
          have hj1 : j < (rootValues A s rest
              (max bs (min_value A (s.result a) bs Score.posInf (depth - 1))) depth).length := by
            rw [hEq]; exact hj
          have e1 : (rootValues A s rest
                (max bs (min_value A (s.result a) bs Score.posInf (depth - 1))) depth).get
                ⟨j, hj1⟩
              = (rootValues A s rest
                (min_value A (s.result a) bs Score.posInf (depth - 1)) depth).get
                ⟨j, hj⟩ :=
            List.get_of_eq hEq ⟨j, hj1⟩
          have hcmp : (rootValues A s rest
                (max bs (min_value A (s.result a) bs Score.posInf (depth - 1))) depth).get
                ⟨j, hj1⟩
              < (rootValues A s rest
                (max bs (min_value A (s.result a) bs Score.posInf (depth - 1))) depth).get
                ⟨k1, hkv1⟩ :=
            hfirst (j + 1) (Nat.succ_lt_succ hj1) (Nat.succ_lt_succ hjk)
          rw [e1, e2] at hcmp
          exact hcmp
        · rw [e2] at hv_lt
          exact hv_lt
      · rw [if_neg hc, max_eq_left (not_lt.mp hc)]
        have hEq : rootValues A s rest
            (max bs (min_value A (s.result a) bs Score.posInf (depth - 1))) depth
            = rootValues A s rest bs depth := by
          rw [max_eq_left (not_lt.mp hc)]
        have hkv2 : k1 < (rootValues A s rest bs depth).length := by
          rw [← hEq]; exact hkv1
        have e2 : (rootValues A s rest
              (max bs (min_value A (s.result a) bs Score.posInf (depth - 1))) depth).get
              ⟨k1, hkv1⟩
            = (rootValues A s rest bs depth).get ⟨k1, hkv2⟩ :=
          List.get_of_eq hEq ⟨k1, hkv1⟩
        refine ih bs bm k1 hka1 hkv2 ?_ ?_ ?_
        · intro j hj
          have hj1 : j < (rootValues A s rest
              (max bs (min_value A (s.result a) bs Score.posInf (depth - 1))) depth).length := by
            rw [hEq]; exact hj
          have e1 : (rootValues A s rest
                (max bs (min_value A (s.result a) bs Score.posInf (depth - 1))) depth).get
                ⟨j, hj1⟩
              = (rootValues A s rest bs depth).get ⟨j, hj⟩ :=
            List.get_of_eq hEq ⟨j, hj1⟩
          have hcmp : (rootValues A s rest
                (max bs (min_value A (s.result a) bs Score.posInf (depth - 1))) depth).get
                ⟨j, hj1⟩
              ≤ (rootValues A s rest
                (max bs (min_value A (s.result a) bs Score.posInf (depth - 1))) depth).get
                ⟨k1, hkv1⟩ :=
            hmax (j + 1) (Nat.succ_lt_succ hj1)
          rw [e1, e2] at hcmp
          exact hcmp
        · intro j hj hjk
          have hj1 : j < (rootValues A s rest
              (max bs (min_value A (s.result a) bs Score.posInf (depth - 1))) depth).length := by
            rw [hEq]; exact hj
          have e1 : (rootValues A s rest
                (max bs (min_value A (s.result a) bs Score.posInf (depth - 1))) depth).get
                ⟨j, hj1⟩
              = (rootValues A s rest bs depth).get ⟨j, hj⟩ :=
            List.get_of_eq hEq ⟨j, hj1⟩
          have hcmp : (rootValues A s rest
                (max bs (min_value A (s.result a) bs Score.posInf (depth - 1))) depth).get
                ⟨j, hj1⟩
              < (rootValues A s rest
                (max bs (min_value A (s.result a) bs Score.posInf (depth - 1))) depth).get
                ⟨k1, hkv1⟩ :=
            hfirst (j + 1) (Nat.succ_lt_succ hj1) (Nat.succ_lt_succ hjk)
          rw [e1, e2] at hcmp
          exact hcmp
        · rw [e2] at hbs1
          exact hbs1

/-- Benchmark-mode agent (`h_type = 0`), playing as player 0. -/
def exA0 : AlphaBetaAgent := ⟨0, 1, 0⟩

/-- Phase-adaptive agent (`h_type = 1`), playing as player 0. -/
def exA1 : AlphaBetaAgent := ⟨0, 1, 1⟩

/-- Agent built with an invalid heuristic flag (`h_type = 2`). -/
def exA2 : AlphaBetaAgent := ⟨0, 1, 2⟩

/-- Liberties table used by the example states: five liberties from
location 0, three from any other location. -/
def exLib : Loc → List Loc :=
  fun l => if l = 0 then [10, 11, 12, 13, 14] else [20, 21, 22]

/-- A terminal position with utility 10 for player 0 and liberties 5
and 3 for the two players. -/
def exTerm : GameState :=
  .node (fun p => if p = 0 then 0 else 1) 40 exLib true
    (fun p => if p = 0 then Score.val 10 else Score.val (-10)) []

/-- A non-terminal position with no legal moves (a stuck position). -/
def exStuck : GameState :=
  .node (fun _ => 0) 0 (fun _ => []) false (fun _ => Score.val 0) []

/-- Non-terminal position with ply count 30 (fill ratio below one half)
and liberties 5 and 3. -/
def exPhase30 : GameState :=
  .node (fun p => if p = 0 then 0 else 1) 30 exLib false (fun _ => Score.val 0) []

/-- Non-terminal position with ply count 69 (fill ratio above one half)
and liberties 5 and 3. -/
def exPhase69 : GameState :=
  .node (fun p => if p = 0 then 0 else 1) 69 exLib false (fun _ => Score.val 0) []

/-- A lost terminal position: utility `-inf` for every player. -/
def exLeafLost : GameState :=
  .node (fun _ => 0) 2 (fun _ => []) true (fun _ => Score.negInf) []

/-- A non-terminal position whose single legal move leads to the lost
terminal position. -/
def exLost : GameState :=
  .node (fun _ => 0) 1 (fun _ => []) false (fun _ => Score.val 0)
    [((0, 0), exLeafLost)]

/-- A non-terminal position with two legal moves, both leading to the
lost terminal position: every candidate receives the same root value
`-inf`. -/
def exLost2 : GameState :=
  .node (fun _ => 0) 1 (fun _ => []) false (fun _ => Score.val 0)
    [((0, 0), exLeafLost), ((1, 0), exLeafLost)]

/-- A terminal position of utility 5 for every player. -/
def exLeaf5 : GameState :=
  .node (fun _ => 0) 2 (fun _ => []) true (fun _ => Score.val 5) []

/-- A position with two legal moves leading to equally valued terminal
positions (a root tie). -/
def exTie : GameState :=
  .node (fun _ => 0) 1 (fun _ => []) false (fun _ => Score.val 0)
    [((0, 0), exLeaf5), ((1, 0), exLeaf5)]

/-- A terminal leaf of the given utility, for every player. -/
def exLeaf (u : ℤ) : GameState :=
  .node (fun _ => 0) 3 (fun _ => []) true (fun _ => Score.val u) []

/-- First interior minimizing node of the depth-two example tree. -/
def exMid1 : GameState :=
  .node (fun _ => 0) 2 (fun _ => []) false (fun _ => Score.val 0)
    [((0, 0), exLeaf 3), ((1, 0), exLeaf 8)]

/-- Second interior minimizing node of the depth-two example tree; its
second child triggers an alpha cutoff during the pruned search. -/
def exMid2 : GameState :=
  .node (fun _ => 0) 2 (fun _ => []) false (fun _ => Score.val 0)
    [((0, 0), exLeaf 5), ((1, 0), exLeaf 1)]

/-- A depth-two game tree on which pruning occurs. -/
def exTree : GameState :=
  .node (fun _ => 0) 1 (fun _ => []) false (fun _ => Score.val 0)
    [((0, 0), exMid1), ((1, 0), exMid2)]

/-- `List.head?` is a valid model of `random.choice`: whenever it picks
a move, that move belongs to the list. -/
theorem pickHead_mem : ∀ (xs : List Move) (m : Move), xs.head? = some m → m ∈ xs := by
  intro xs m h
  cases xs with
  | nil => exact absurd h (by simp)
  | cons a t =>
    simp only [List.head?_cons, Option.some.injEq] at h
    exact h ▸ List.mem_cons_self a t

/-- C4: at every node, for any remaining depth (including an exhausted
depth budget) and any heuristic mode, a terminal position makes both
`min_value` and `max_value` return exactly
`gameState.utility(agent_player)`, never the heuristic: the terminal
test is checked before the depth test. -/
theorem terminal_overrides_heuristic (A : AlphaBetaAgent) (s : GameState)
    (alpha beta : Score) (depth : Nat) (ht : s.terminal_test = true) :
    min_value A s alpha beta depth = s.utility A.agent_player ∧
    max_value A s alpha beta depth = s.utility A.agent_player := by
  cases depth with
  | zero => exact ⟨by simp [min_value, ht], by simp [max_value, ht]⟩
  | succ d => exact ⟨by simp [min_value, ht], by simp [max_value, ht]⟩

theorem terminal_overrides_heuristic_witness :
    exTerm.terminal_test = true ∧
    min_value exA1 exTerm Score.negInf Score.posInf 0 = Score.val 10 ∧
    max_value exA1 exTerm Score.negInf Score.posInf 0 = Score.val 10 :=
  ⟨rfl,
    (terminal_overrides_heuristic exA1 exTerm Score.negInf Score.posInf 0 rfl).1.trans rfl,
    (terminal_overrides_heuristic exA1 exTerm Score.negInf Score.posInf 0 rfl).2.trans rfl⟩

/-- C5: a non-terminal position with an empty action list, met with
remaining depth above zero, makes `min_value` return `+inf` and
`max_value` return `-inf` (the initialized sentinels), with no error. -/
theorem empty_actions_sentinel (A : AlphaBetaAgent) (s : GameState)
    (alpha beta : Score) (depth : Nat) (ht : s.terminal_test = false)
    (ha : s.actions = []) (hd : 0 < depth) :
    min_value A s alpha beta depth = Score.posInf ∧
    max_value A s alpha beta depth = Score.negInf := by
  cases depth with
  | zero => exact absurd hd (lt_irrefl 0)
  | succ d =>
    exact ⟨by simp [min_value, ht, ha, minLoop], by simp [max_value, ht, ha, maxLoop]⟩

theorem empty_actions_sentinel_witness :
    exStuck.terminal_test = false ∧ exStuck.actions = [] ∧
    min_value exA0 exStuck Score.negInf Score.posInf 3 = Score.posInf ∧
    max_value exA0 exStuck Score.negInf Score.posInf 3 = Score.negInf :=
  ⟨rfl, rfl,
    (empty_actions_sentinel exA0 exStuck Score.negInf Score.posInf 3 rfl rfl
      (by decide)).1,
    (empty_actions_sentinel exA0 exStuck Score.negInf Score.posInf 3 rfl rfl
      (by decide)).2⟩

/-- C6: the phase-adaptive evaluator (`h_type = 1`) scores a
non-terminal position as `agentMobility - 2 * opponentMobility` when
the fill ratio `ply_count / BOARD_SIZE` is below one half, and as
`2 * agentMobility - opponentMobility` otherwise. -/
theorem phase_adaptive_formula (A : AlphaBetaAgent) (s : GameState)
    (h1 : A.h_type = 1) (hnt : s.terminal_test = false) :
    ((s.ply_count : ℚ) / (BOARD_SIZE : ℚ) < 0.5 →
      A.heuristic s = some (((s.liberties (s.locs A.agent_player)).length : ℤ)
        - 2 * ((s.liberties (s.locs A.opponent_player)).length : ℤ))) ∧
    (¬ ((s.ply_count : ℚ) / (BOARD_SIZE : ℚ) < 0.5) →
      A.heuristic s = some (2 * ((s.liberties (s.locs A.agent_player)).length : ℤ)
        - ((s.liberties (s.locs A.opponent_player)).length : ℤ))) := by
  constructor
  · intro hr
    simp [AlphaBetaAgent.heuristic, h1, hr]
  · intro hr
    simp [AlphaBetaAgent.heuristic, h1, hr]

theorem phase_adaptive_formula_witness :
    exA1.heuristic exPhase30 = some (-1) ∧ exA1.heuristic exPhase69 = some 7 := by
  have h30 : (exPhase30.ply_count : ℚ) / (BOARD_SIZE : ℚ) < 0.5 := by
    norm_num [exPhase30, GameState.ply_count, BOARD_SIZE]
  have h69 : ¬ (exPhase69.ply_count : ℚ) / (BOARD_SIZE : ℚ) < 0.5 := by
    norm_num [exPhase69, GameState.ply_count, BOARD_SIZE]
  refine ⟨((phase_adaptive_formula exA1 exPhase30 rfl rfl).1 h30).trans ?_,
    ((phase_adaptive_formula exA1 exPhase69 rfl rfl).2 h69).trans ?_⟩
  · decide
  · decide

/-- C7: the iterative-deepening driver `compute` produces exactly
`max_depth` outcomes, one per depth, for depths 1 up to `max_depth` in
increasing order, the outcome at index `i` being the completed
fixed-depth decision at depth `i + 1`. -/
theorem compute_yields_per_depth (pick : List Move → Option Move)
    (A : AlphaBetaAgent) (s : GameState) (max_depth : Nat) (hd : 1 ≤ max_depth) :
    (compute pick A s max_depth).length = max_depth ∧
    ∀ i, i < max_depth →
      (compute pick A s max_depth)[i]? = some (minimax_decision pick A s (i + 1)) := by
  constructor
  · simp [compute]
  · intro i hi
    simp [compute, List.getElem?_range', hi, Nat.add_comm]

theorem compute_yields_per_depth_witness :
    (compute List.head? exA0 exTree 3).length = 3 ∧
    (compute List.head? exA0 exTree 3)[1]?
      = some (minimax_decision List.head? exA0 exTree 2) :=
  ⟨(compute_yields_per_depth List.head? exA0 exTree 3 (by decide)).1,
    (compute_yields_per_depth List.head? exA0 exTree 3 (by decide)).2 1 (by decide)⟩

/-- C9 counterexample: calling the evaluator on a terminal position does
not fail; with the benchmark mode it silently returns the mobility
difference (here 5 - 3 = 2). -/
theorem heuristic_terminal_silent_cex :
    exTerm.terminal_test = true ∧ exA0.heuristic exTerm = some 2 :=
  ⟨rfl, by decide⟩

/-- C9 amended: the evaluator performs no terminal check: in either
valid heuristic mode it returns a score on every position, terminal
positions included, instead of failing. -/
theorem heuristic_total_on_valid_modes (A : AlphaBetaAgent) (s : GameState)
    (hvalid : A.h_type = 0 ∨ A.h_type = 1) :
    ∃ v : ℤ, A.heuristic s = some v := by
  simp only [AlphaBetaAgent.heuristic]
  rcases hvalid with h | h
  · rw [if_pos h]
    exact ⟨_, rfl⟩
  · have h0 : ¬ A.h_type = 0 := by rw [h]; decide
    rw [if_neg h0, if_pos h]
    by_cases hr : (s.ply_count : ℚ) / (BOARD_SIZE : ℚ) < 0.5
    · rw [if_pos hr]
      exact ⟨_, rfl⟩
    · rw [if_neg hr]
      exact ⟨_, rfl⟩

theorem heuristic_total_on_valid_modes_witness :
    exTerm.terminal_test = true ∧ ∃ v : ℤ, exA1.heuristic exTerm = some v :=
  ⟨rfl, heuristic_total_on_valid_modes exA1 exTerm (Or.inr rfl)⟩

/-- C10: for any flag value other than 0 and 1 the `heuristic` method
falls through both branches and returns no score at all (`None`), for
every position; the invalid mode is rejected neither at construction
nor at call time. -/
theorem invalid_mode_returns_none (A : AlphaBetaAgent) (s : GameState)
    (h0 : A.h_type ≠ 0) (h1 : A.h_type ≠ 1) : A.heuristic s = none := by
  simp [AlphaBetaAgent.heuristic, h0, h1]

theorem invalid_mode_returns_none_witness :
    exA2.h_type ≠ 0 ∧ exA2.h_type ≠ 1 ∧ exA2.heuristic exStuck = none :=
  ⟨by decide, by decide,
    invalid_mode_returns_none exA2 exStuck (by decide) (by decide)⟩

/-- C2: any move returned by `minimax_decision` (for any picker whose
choices come from its input list, as `random.choice` does) belongs to
`gameState.actions()`, whether it came from the best-move loop or from
the fallback. -/
theorem decision_move_is_legal (pick : List Move → Option Move)
    (A : AlphaBetaAgent) (s : GameState) (depth : Nat) (hd : 1 ≤ depth)
    (hpick : ∀ (xs : List Move) (m : Move), pick xs = some m → m ∈ xs) :
    ∀ m : Move, minimax_decision pick A s depth = some m → m ∈ s.actions := by
  intro m hm
  rcases hrs : (root_search A s depth).2 with _ | bm
  · have hfb : minimax_decision pick A s depth = pick s.actions := by
      unfold minimax_decision
      rw [hrs]
    rw [hfb] at hm
    exact hpick s.actions m hm
  · have hmain : minimax_decision pick A s depth = some bm := by
      unfold minimax_decision
      rw [hrs]
    rw [hmain] at hm
    have hbm : bm = m := Option.some_injective _ hm
    rcases rootLoop_move A s depth s.actions Score.negInf Score.posInf Score.negInf
      none with h | ⟨b, hbmem, h⟩
    · have h2 : (root_search A s depth).2 = none := h
      rw [h2] at hrs
      exact Option.noConfusion hrs
    · have h2 : (root_search A s depth).2 = some b := h
      rw [h2] at hrs
      have : b = bm := Option.some_injective _ hrs
      rw [← hbm, ← this]
      exact hbmem

theorem decision_move_is_legal_witness :
    ((0, 0) : Move) ∈ GameState.actions exTie :=
  decision_move_is_legal List.head? exA0 exTie 1 (by decide) pickHead_mem
    (0, 0) (by decide)

/-- C8 counterexample: in the position `exLost`, whose single legal
move leads to a lost terminal position (value `-inf`), the candidate
loop leaves `best_move` unset, so the random fallback fires even though
the legal-move list is non-empty, and the returned move comes from the
picker, not from the loop. -/
theorem fallback_fires_with_moves_cex :
    exLost.actions ≠ [] ∧ (root_search exA0 exLost 1).2 = none ∧
    minimax_decision List.head? exA0 exLost 1 = List.head? exLost.actions := by
  refine ⟨by decide, by decide, ?_⟩
  unfold minimax_decision
  rw [show (root_search exA0 exLost 1).2 = none by decide]

/-- C8 amended: the fallback fires exactly when every candidate root
value equals `-inf` (in particular, but not only, when the legal-move
list is empty); whenever the loop records a best move, that move is
returned and the fallback never overrides it. -/
theorem fallback_characterisation (pick : List Move → Option Move)
    (A : AlphaBetaAgent) (s : GameState) (depth : Nat) :
    ((root_search A s depth).2 = none ↔
      ∀ w ∈ rootValuesAt A s depth, w = Score.negInf) ∧
    (∀ m : Move, (root_search A s depth).2 = some m →
      minimax_decision pick A s depth = some m) := by
  constructor
  · constructor
    · intro hnone w hw
      by_contra hne
      have hex : ∃ w ∈ rootValues A s s.actions Score.negInf depth,
          ¬ w ≤ Score.negInf :=
        ⟨w, hw, fun hle => hne ((Score.le_negInf_iff w).mp hle)⟩
      obtain ⟨a, ha⟩ := rootLoop_improve A s depth s.actions Score.negInf none hex
      have ha2 : (root_search A s depth).2 = some a := ha
      rw [hnone] at ha2
      exact Option.noConfusion ha2
    · intro hall
      have hc := rootLoop_const A s depth s.actions Score.negInf none
        (fun w hw => (hall w hw).le)
      have h2 : (root_search A s depth).2 = (Score.negInf, (none : Option Move)).2 := by
        exact congrArg Prod.snd hc
      exact h2
  · intro m hm
    unfold minimax_decision
    rw [hm]

theorem fallback_characterisation_witness :
    (root_search exA0 exLost 1).2 = none :=
  (fallback_characterisation List.head? exA0 exLost 1).1.mpr (by decide)

/-- C3 counterexample: in `exLost2` the two candidate moves receive
equal best root values (both `-inf`), yet `minimax_decision` does not
return the earlier one: the strict update test never fires at `-inf`,
so the random fallback chooses, and a run of `random.choice` that picks
the last element (modelled by the picker `List.getLast?`, which does
return an element of its input list) yields the later tied move
`(1, 0)` instead of the earliest `(0, 0)` — and a different run can
yield a different move, so the choice is not reproducible either. -/
theorem tie_break_random_on_all_lost_cex :
    exLost2.actions = [(0, 0), (1, 0)] ∧
    (rootValuesAt exA0 exLost2 1).get ⟨0, by decide⟩
      = (rootValuesAt exA0 exLost2 1).get ⟨1, by decide⟩ ∧
    minimax_decision (fun xs => xs.getLast?) exA0 exLost2 1 = some (1, 0) :=
  ⟨by decide, by decide, by decide⟩

/-- C3 amended: the first-seen tie-break holds whenever the loop
records a best move at all, that is, whenever the best root value
exceeds `-inf`: if the `k`-th candidate move receives the best root
value, no earlier candidate receives a value as large, and that best
value exceeds `-inf`, then `minimax_decision` returns exactly the
`k`-th element of `gameState.actions()`: on such ties the move seen
first in enumeration order wins and is never replaced by a later equal
score, deterministically.  (When every candidate scores `-inf`, no
best move is recorded and the random fallback chooses instead.) -/
theorem tie_break_first_argmax (pick : List Move → Option Move)
    (A : AlphaBetaAgent) (s : GameState) (depth : Nat) (k : Nat)
    (hd : 1 ≤ depth)
    (hka : k < s.actions.length)
    (hkv : k < (rootValuesAt A s depth).length)
    (hmax : ∀ j (hj : j < (rootValuesAt A s depth).length),
      (rootValuesAt A s depth).get ⟨j, hj⟩ ≤ (rootValuesAt A s depth).get ⟨k, hkv⟩)
    (hfirst : ∀ j (hj : j < (rootValuesAt A s depth).length), j < k →
      (rootValuesAt A s depth).get ⟨j, hj⟩ < (rootValuesAt A s depth).get ⟨k, hkv⟩)
    (hpos : Score.negInf < (rootValuesAt A s depth).get ⟨k, hkv⟩) :
    minimax_decision pick A s depth = some (s.actions.get ⟨k, hka⟩) := by
  have h := rootLoop_first_argmax A s depth s.actions Score.negInf none k hka hkv
    hmax hfirst hpos
  have h2 : (root_search A s depth).2 = some (s.actions.get ⟨k, hka⟩) := h
  unfold minimax_decision
  rw [h2]

theorem tie_break_first_argmax_witness :
    (rootValuesAt exA0 exTie 1).get ⟨0, by decide⟩
        = (rootValuesAt exA0 exTie 1).get ⟨1, by decide⟩ ∧
    minimax_decision List.head? exA0 exTie 1 = some (0, 0) := by
  constructor
  · decide
  · have h := tie_break_first_argmax List.head? exA0 exTie 1 0 (by decide) (by decide)
      (by decide) (by decide) (by decide) (by decide)
    exact h.trans (by decide)

/-- C1: at the root, for a valid heuristic mode and depth at least one,
the best score computed by the alpha-beta pruned search equals the
score of the full unpruned minimax search of the same depth, and every
move `minimax_decision` returns attains that score (its own unpruned
value one level down equals the root score). -/
theorem alphabeta_equals_full_minimax (pick : List Move → Option Move)
    (A : AlphaBetaAgent) (s : GameState) (depth : Nat)
    (hd : 1 ≤ depth) (hvalid : A.h_type = 0 ∨ A.h_type = 1)
    (hpick : ∀ (xs : List Move) (m : Move), pick xs = some m → m ∈ xs) :
    (root_search A s depth).1 = fullRootScore A s depth ∧
    ∀ m : Move, minimax_decision pick A s depth = some m →
      fullMin A (s.result m) (depth - 1) = fullRootScore A s depth := by
  obtain ⟨h1, h2⟩ := rootLoop_spec A s depth s.actions Score.negInf none
  have h1r : (root_search A s depth).1
      = max Score.negInf (fullMaxList (fun c => fullMin A c (depth - 1)) s s.actions) := h1
  have hscore : (root_search A s depth).1 = fullRootScore A s depth := by
    rw [h1r, Score.max_negInf]
    rfl
  refine ⟨hscore, ?_⟩
  intro m hm
  rcases h2 with ⟨hbm, hbs⟩ | ⟨b, hbmem, hbm, hbv⟩
  · have hbm2 : (root_search A s depth).2 = none := hbm
    have hbs2 : (root_search A s depth).1 = Score.negInf := hbs
    have hT : fullMaxList (fun c => fullMin A c (depth - 1)) s s.actions
        = Score.negInf := by
      have := h1r.symm.trans hbs2
      rw [Score.max_negInf] at this
      exact this
    have hmpick : pick s.actions = some m := by
      unfold minimax_decision at hm
      rw [hbm2] at hm
      exact hm
    have hmem := hpick s.actions m hmpick
    have hall : fullMin A (s.result m) (depth - 1) = Score.negInf :=
      fullMaxList_eq_negInf (fun c => fullMin A c (depth - 1)) s s.actions hT m hmem
    have hroot : fullRootScore A s depth = Score.negInf := hT
    rw [hall, hroot]
  · have hbm2 : (root_search A s depth).2 = some b := hbm
    have hbv2 : fullMin A (s.result b) (depth - 1) = (root_search A s depth).1 := hbv
    have hmeq : m = b := by
      unfold minimax_decision at hm
      rw [hbm2] at hm
      exact (Option.some_injective _ hm).symm
    rw [hmeq]
    exact hbv2.trans hscore

theorem alphabeta_equals_full_minimax_witness :
    (root_search exA0 exTree 2).1 = fullRootScore exA0 exTree 2 ∧
    fullMin exA0 (exTree.result (0, 0)) 1 = fullRootScore exA0 exTree 2 := by
  have h := alphabeta_equals_full_minimax List.head? exA0 exTree 2 (by decide)
    (Or.inl rfl) pickHead_mem
  exact ⟨h.1, h.2 (0, 0) (by decide)⟩
